import Mathlib

/-!
Verification of the redis-bloom-filter repository (`src/index.ts`).

The development shallowly embeds the `BloomFilter` class.  The remote store
is modelled as the pair of the two keys the class touches: the configuration
hash (`<name>:config`, an `Option StoredConfig`) and the bit array
(`<name>`, an `Option (Finset ℕ)` holding the positions of the 1-bits; an
absent key reads as all zeroes, exactly as Redis `GETBIT`/`SETBIT` treat a
missing key).  A facade instance carries the cached `size` and
`hashIterations` fields next to the store.  Pipelined batches are embedded
as sequential folds, which matches Redis pipeline execution order.  The
external 128-bit item hash (library `xxh3-ts`, not part of the repository)
is abstracted as a parameter `hashFn` mapping an item to the two 64-bit
halves of its digest; it is a pure function of the item, which models the
deterministic serialize-then-hash step.  JavaScript `number` arithmetic in
the parameter calculator is embedded as real arithmetic, and key expiry
(TTL) is not modelled (real time is outside the embedding; no claim
mentions it).
-/

namespace BloomFilter

/-- Embeds the `BloomFilterConfig` record that `tryInit` stores under the
`<name>:config` key and `getConfigFields` reads back. -/
structure StoredConfig where
  size : ℕ
  hashIterations : ℕ
  expectedInsertions : ℕ
  falseProbability : ℝ

/-- The two Redis keys owned by a named filter: the config hash and the bit
array.  `bits = none` models an absent bit-array key. -/
structure StoreState where
  config : Option StoredConfig
  bits : Option (Finset ℕ)

/-- A facade instance: the cached `size` and `hashIterations` fields of the
`BloomFilter` class (both `0` until first loaded) together with the store. -/
structure FilterState where
  size : ℕ
  hashIterations : ℕ
  store : StoreState

/-- The fresh state: a brand-new instance against an empty store. -/
def initialState : FilterState :=
  { size := 0, hashIterations := 0, store := { config := none, bits := none } }

/-- The error conditions the class throws (`throw new Error(...)` sites). -/
inductive BloomError where
  | invalidProbability
  | invalidSize
  | notInitialized
  | pipelineFailure
deriving DecidableEq

/-- Embeds the loop of `computeIndexes`: `fuel` counts the remaining
iterations, `i` is the loop counter and `hash` the accumulator.  Each
iteration emits `(hash & 0x7fffffffffffffff) % size` and then adds `hash2`
on even `i`, `hash1` on odd `i`. -/
def computeIndexesGo (hash1 hash2 size : ℕ) : ℕ → ℕ → ℕ → List ℕ
  | 0, _, _ => []
  | fuel + 1, i, hash =>
    (hash &&& 0x7fffffffffffffff) % size ::
      computeIndexesGo hash1 hash2 size fuel (i + 1)
        (if i % 2 = 0 then hash + hash2 else hash + hash1)

/-- Embeds `BloomFilter.computeIndexes(hash1, hash2, iterations, size)`. -/
def computeIndexes (hash1 hash2 : ℕ) (iterations size : ℕ) : List ℕ :=
  computeIndexesGo hash1 hash2 size iterations 0 hash1

/-- Embeds `BloomFilter.getAllIndexes`: the flat, per-item-grouped index
sequence for a batch, `hashFn` standing for the external `hash` method. -/
def getAllIndexes (hashFn : α → ℕ × ℕ) (hashIterations size : ℕ)
    (items : List α) : List ℕ :=
  items.flatMap fun item =>
    computeIndexes (hashFn item).1 (hashFn item).2 hashIterations size

/-- The ordered list of `SETBIT` offsets `addAll` queues: for each item
index `i` the slice `allIndexes.slice(i*k, i*k+k)`. -/
def sliceOps (allIndexes : List ℕ) (numItems indexesPerItem : ℕ) : List ℕ :=
  (List.range numItems).flatMap fun i =>
    (allIndexes.drop (i * indexesPerItem)).take indexesPerItem

/-- A pipelined batch of `SETBIT key idx 1` commands: returns the final bit
set and, in order, each command's reply (the bit's previous value). -/
def setbitBatch : Finset ℕ → List ℕ → Finset ℕ × List Bool
  | bits, [] => (bits, [])
  | bits, idx :: rest =>
    let prev := decide (idx ∈ bits)
    let out := setbitBatch (insert idx bits) rest
    (out.1, prev :: out.2)

/-- Embeds the reply-counting loop of `addAll`: `rIndex` is the reply index,
`newBitSet` the `newBitSetForCurrentItem` flag and `addedCount` the
accumulator.  A reply of `0` (here `false`) sets the flag; at the end of
each group of `indexesPerItem` replies the count is bumped when the flag is
set and the flag is reset. -/
def countAddedGo (indexesPerItem : ℕ) : List Bool → ℕ → Bool → ℕ → ℕ
  | [], _, _, addedCount => addedCount
  | bitVal :: rest, rIndex, newBitSet, addedCount =>
    let newBitSet := if bitVal = false then true else newBitSet
    if (rIndex + 1) % indexesPerItem = 0 then
      countAddedGo indexesPerItem rest (rIndex + 1) false
        (if newBitSet then addedCount + 1 else addedCount)
    else
      countAddedGo indexesPerItem rest (rIndex + 1) newBitSet addedCount

/-- Embeds the reply-counting loop of `containsAll`: `allSet` is the
`allSetForCurrentItem` flag, cleared by a `0` reply and reset to `true`
after each group of `indexesPerItem` replies. -/
def countPresentGo (indexesPerItem : ℕ) : List Bool → ℕ → Bool → ℕ → ℕ
  | [], _, _, presentCount => presentCount
  | bitVal :: rest, i, allSet, presentCount =>
    let allSet := if bitVal = false then false else allSet
    if (i + 1) % indexesPerItem = 0 then
      countPresentGo indexesPerItem rest (i + 1) true
        (if allSet then presentCount + 1 else presentCount)
    else
      countPresentGo indexesPerItem rest (i + 1) allSet presentCount

/-- Embeds `readConfig`: `HGETALL` on the config key, failing with the
"Bloom filter is not initialized" error when the key is absent, otherwise
caching `size` and `hashIterations`. -/
def readConfig (st : FilterState) : Except BloomError FilterState :=
  match st.store.config with
  | none => .error .notInitialized
  | some c => .ok { st with size := c.size, hashIterations := c.hashIterations }

/-- Embeds `ensureConfigLoaded`: load the config only when the cached size
is still `0`. -/
def ensureConfigLoaded (st : FilterState) : Except BloomError FilterState :=
  if st.size = 0 then readConfig st else .ok st

/-- Embeds `addAll`: empty input short-circuits to `0`; otherwise the config
is ensured, all indexes are computed, one `SETBIT _ idx 1` per sliced index
is pipelined, and the replies are folded by the counting loop. -/
def addAll (hashFn : α → ℕ × ℕ) (st : FilterState) (items : List α) :
    Except BloomError (ℕ × FilterState) :=
  if items.length = 0 then .ok (0, st)
  else
    match ensureConfigLoaded st with
    | .error e => .error e
    | .ok st' =>
      let allIndexes := getAllIndexes hashFn st'.hashIterations st'.size items
      let ops := sliceOps allIndexes items.length st'.hashIterations
      let res := setbitBatch (st'.store.bits.getD ∅) ops
      .ok (countAddedGo st'.hashIterations res.2 0 false 0,
        { st' with store := { st'.store with bits := some res.1 } })

/-- Embeds `add`: `addAll` on the singleton batch, `true` iff the count is 1. -/
def add (hashFn : α → ℕ × ℕ) (st : FilterState) (item : α) :
    Except BloomError (Bool × FilterState) :=
  match addAll hashFn st [item] with
  | .error e => .error e
  | .ok (c, st') => .ok (c == 1, st')

/-- Embeds `containsAll`: empty input short-circuits to `0`; otherwise one
`GETBIT` per index is pipelined and the replies are folded by the counting
loop.  A `GETBIT` on the bit set reads membership (absent key: all zero). -/
def containsAll (hashFn : α → ℕ × ℕ) (st : FilterState) (items : List α) :
    Except BloomError (ℕ × FilterState) :=
  if items.length = 0 then .ok (0, st)
  else
    match ensureConfigLoaded st with
    | .error e => .error e
    | .ok st' =>
      let allIndexes := getAllIndexes hashFn st'.hashIterations st'.size items
      let results := allIndexes.map fun idx => decide (idx ∈ st'.store.bits.getD ∅)
      .ok (countPresentGo st'.hashIterations results 0 true 0, st')

/-- Embeds `contains`: `containsAll` on the singleton batch. -/
def contains (hashFn : α → ℕ × ℕ) (st : FilterState) (item : α) :
    Except BloomError (Bool × FilterState) :=
  match containsAll hashFn st [item] with
  | .error e => .error e
  | .ok (c, st') => .ok (c == 1, st')

/-- Embeds `delete`: `DEL` of both keys (reply: number of keys removed),
then the cached fields are reset to `0`. -/
def delete (st : FilterState) : Bool × FilterState :=
  let removed := (if st.store.config.isSome then 1 else 0) +
    (if st.store.bits.isSome then 1 else 0)
  (decide (0 < removed),
    { size := 0, hashIterations := 0, store := { config := none, bits := none } })

/-- Embeds `exists`: `EXISTS` on the config key; the cache is untouched. -/
def existsKey (st : FilterState) : Bool := st.store.config.isSome

/-- Embeds `getExpectedInsertions`: a fresh read of the stored config. -/
def getExpectedInsertions (st : FilterState) : Except BloomError ℕ :=
  match st.store.config with
  | none => .error .notInitialized
  | some c => .ok c.expectedInsertions

/-- Embeds `getFalseProbability`: a fresh read of the stored config. -/
def getFalseProbability (st : FilterState) : Except BloomError ℝ :=
  match st.store.config with
  | none => .error .notInitialized
  | some c => .ok c.falseProbability

/-- Embeds `getSize`: the cached value, no remote call. -/
def getSize (st : FilterState) : ℕ := st.size

/-- Embeds `getHashIterations`: the cached value, no remote call. -/
def getHashIterations (st : FilterState) : ℕ := st.hashIterations

/-- Embeds JavaScript `Math.round` on the reals: round half away from zero
is `⌊x + 1/2⌋` for the arguments used here (ties round up). -/
noncomputable def jsRound (x : ℝ) : ℤ := ⌊x + 1 / 2⌋

/-- Embeds `Number.MIN_VALUE`, the smallest positive double. -/
noncomputable def numberMinValue : ℝ := 2 ^ (-(1074 : ℤ))

/-- Embeds `optimalNumOfHashFunctions(n, m) = Math.max(1, Math.round((m / n) * Math.log(2)))`. -/
noncomputable def optimalNumOfHashFunctions (n m : ℕ) : ℤ :=
  max 1 (jsRound ((m : ℝ) / (n : ℝ) * Real.log 2))

/-- Embeds `optimalNumOfBits(n, p) = Math.floor((-n * Math.log(minProb)) / Math.log(2) ** 2)`
with `minProb = p === 0 ? Number.MIN_VALUE : p`. -/
noncomputable def optimalNumOfBits (n : ℕ) (p : ℝ) : ℤ :=
  let minProb := if p = 0 then numberMinValue else p
  ⌊-(n : ℝ) * Real.log minProb / Real.log 2 ^ 2⌋

/-- Embeds the `maxSize` bound of `tryInit`: `Number.MAX_SAFE_INTEGER * 2`. -/
def maxSize : ℤ := 9007199254740991 * 2

/-- Embeds `tryInit`: validate the probability, compute and validate the
size, then run the atomic Lua script.  When the config key is absent the
script stores the four fields and runs `SETBIT key 0 0` (writing a zero at
position 0, which materializes the bit-array key); the facade then caches
the computed values and reports `true`.  When the config key already exists
the script does nothing and the facade loads the stored config into the
cache and reports `false`. -/
noncomputable def tryInit (st : FilterState) (expectedInsertions : ℕ)
    (falseProbability : ℝ) : Except BloomError (Bool × FilterState) :=
  if falseProbability ≤ 0 ∨ 1 < falseProbability then .error .invalidProbability
  else
    let size := optimalNumOfBits expectedInsertions falseProbability
    if size = 0 ∨ maxSize < size then .error .invalidSize
    else
      let hashIterations := optimalNumOfHashFunctions expectedInsertions size.toNat
      match st.store.config with
      | none =>
        let cfg : StoredConfig :=
          { size := size.toNat, hashIterations := hashIterations.toNat,
            expectedInsertions := expectedInsertions,
            falseProbability := falseProbability }
        .ok (true,
          { size := size.toNat, hashIterations := hashIterations.toNat,
            store := { config := some cfg,
                       bits := some ((st.store.bits.getD ∅).erase 0) } })
      | some c =>
        .ok (false, { st with size := c.size, hashIterations := c.hashIterations })

/-- Embeds `count`: `BITCOUNT` on the bit array, then the cardinality
estimate `Math.round((-size / hashIterations) * Math.log(1 - bitCount / size))`. -/
noncomputable def count (st : FilterState) : Except BloomError (ℤ × FilterState) :=
  match ensureConfigLoaded st with
  | .error e => .error e
  | .ok st' =>
    let bitCount := (st'.store.bits.getD ∅).card
    .ok (jsRound (-(st'.size : ℝ) / (st'.hashIterations : ℝ) *
      Real.log (1 - (bitCount : ℝ) / (st'.size : ℝ))), st')

/-- A reply list cut into consecutive groups of `k` (the per-item groups of
a batched pipeline reply). -/
def chunksOf (k : ℕ) : ℕ → List Bool → List (List Bool)
  | 0, _ => []
  | n + 1, l => l.take k :: chunksOf k n (l.drop k)

/-- The replies (previous bit values) of the `SETBIT` batch a successful
`addAll` call issues from a state whose cache is already loaded. -/
def addAllReplies (hashFn : α → ℕ × ℕ) (st : FilterState) (items : List α) :
    List Bool :=
  (setbitBatch (st.store.bits.getD ∅)
    (sliceOps (getAllIndexes hashFn st.hashIterations st.size items)
      items.length st.hashIterations)).2

/-- The replies (bit values) of the `GETBIT` batch a successful
`containsAll` call issues from a state whose cache is already loaded. -/
def containsAllReplies (hashFn : α → ℕ × ℕ) (st : FilterState)
    (items : List α) : List Bool :=
  (getAllIndexes hashFn st.hashIterations st.size items).map fun idx =>
    decide (idx ∈ st.store.bits.getD ∅)

/-- The parameter-validation predicate of `tryInit`: the probability is in
`(0, 1]` and the computed bit-array size is neither `0` nor above the
maximum supported length. -/
def validParams (n : ℕ) (p : ℝ) : Prop :=
  ¬(p ≤ 0 ∨ 1 < p) ∧ ¬(optimalNumOfBits n p = 0 ∨ maxSize < optimalNumOfBits n p)

/-- One public operation of a single facade instance, executed against the
store, relating the state before to the state after.  Hash pairs stand in
for items (`hashFn = id` loses no generality: only the two 64-bit hash
values of an item ever reach the store protocol).  Operations that throw
leave the modelled state unchanged, so only successful outcomes appear. -/
inductive Step : FilterState → FilterState → Prop where
  | tryInit (n : ℕ) (p : ℝ) (b : Bool) (st st' : FilterState) :
      tryInit st n p = .ok (b, st') → Step st st'
  | add (x : ℕ × ℕ) (b : Bool) (st st' : FilterState) :
      add id st x = .ok (b, st') → Step st st'
  | addAll (items : List (ℕ × ℕ)) (c : ℕ) (st st' : FilterState) :
      addAll id st items = .ok (c, st') → Step st st'
  | contains (x : ℕ × ℕ) (b : Bool) (st st' : FilterState) :
      contains id st x = .ok (b, st') → Step st st'
  | containsAll (items : List (ℕ × ℕ)) (c : ℕ) (st st' : FilterState) :
      containsAll id st items = .ok (c, st') → Step st st'
  | count (c : ℤ) (st st' : FilterState) :
      count st = .ok (c, st') → Step st st'
  | delete (st : FilterState) : Step st (BloomFilter.delete st).2
  | existsKey (st : FilterState) : Step st st
  | getExpectedInsertions (st : FilterState) : Step st st
  | getFalseProbability (st : FilterState) : Step st st
  | getSize (st : FilterState) : Step st st
  | getHashIterations (st : FilterState) : Step st st

/-- States reachable by a fresh facade instance on an empty store through
any sequence of public operations. -/
inductive Reachable : FilterState → Prop where
  | init : Reachable initialState
  | step {st st' : FilterState} : Reachable st → Step st st' → Reachable st'

/-- The inductive invariant of the single-instance state machine: an absent
config key means the bit-array key is absent too, and a loaded cache means
the config key exists. -/
def Inv (st : FilterState) : Prop :=
  (st.store.config = none → st.store.bits = none) ∧
    (0 < st.size → st.store.config ≠ none)

/-- The double-hashing accumulator of the `computeIndexes` loop: it starts
at `hash1` and after iteration `i` gains `hash2` when `i` is even and
`hash1` when `i` is odd (unbounded, as the source uses `bigint`). -/
def hashAcc (hash1 hash2 : ℕ) : ℕ → ℕ
  | 0 => hash1
  | i + 1 => hashAcc hash1 hash2 i + (if i % 2 = 0 then hash2 else hash1)

/-- The same accumulator under wrapping 64-bit machine arithmetic. -/
def hashAccWrap (hash1 hash2 : ℕ) : ℕ → ℕ
  | 0 => hash1 % 2 ^ 64
  | i + 1 =>
    (hashAccWrap hash1 hash2 i + (if i % 2 = 0 then hash2 else hash1)) % 2 ^ 64

/-- The loop of `computeIndexes`, started at loop counter `i` with the
accumulator holding `hashAcc i`, emits the masked-and-reduced accumulator
values of iterations `i, i+1, ...`. -/
theorem computeIndexesGo_eq_map (hash1 hash2 size : ℕ) :
    ∀ (fuel i : ℕ),
      computeIndexesGo hash1 hash2 size fuel i (hashAcc hash1 hash2 i) =
        (List.range fuel).map fun j =>
          hashAcc hash1 hash2 (i + j) % 2 ^ 63 % size := by
  intro fuel
  induction fuel with
  | zero => intro i; simp [computeIndexesGo]
  | succ fuel ih =>
    intro i
    have hmask : hashAcc hash1 hash2 i &&& 0x7fffffffffffffff =
        hashAcc hash1 hash2 i % 2 ^ 63 := by
      have : (0x7fffffffffffffff : ℕ) = 2 ^ 63 - 1 := by norm_num
      rw [this, Nat.and_pow_two_sub_one_eq_mod]
    have hstep : (if i % 2 = 0 then hashAcc hash1 hash2 i + hash2
        else hashAcc hash1 hash2 i + hash1) = hashAcc hash1 hash2 (i + 1) := by
      by_cases h : i % 2 = 0 <;> simp [hashAcc, h]
    rw [computeIndexesGo, hmask, hstep, ih (i + 1), List.range_succ_eq_map,
      List.map_cons, List.map_map]
    refine congrArg₂ _ (by rw [Nat.add_zero]) (List.map_congr_left ?_)
    intro j _
    simp only [Function.comp]
    rw [Nat.succ_eq_add_one]
    ring_nf

/-- `computeIndexes` lists, in iteration order, the accumulator reduced to
its low 63 bits and taken modulo `size`. -/
theorem computeIndexes_eq_map (hash1 hash2 k size : ℕ) :
    computeIndexes hash1 hash2 k size =
      (List.range k).map fun j => hashAcc hash1 hash2 j % 2 ^ 63 % size := by
  have h := computeIndexesGo_eq_map hash1 hash2 size k 0
  simpa [computeIndexes, hashAcc] using h

/-- `computeIndexes` returns exactly `iterations` indices. -/
theorem computeIndexes_length (hash1 hash2 k size : ℕ) :
    (computeIndexes hash1 hash2 k size).length = k := by
  simp [computeIndexes_eq_map]

/-- Every index produced by `computeIndexes` is below `size`. -/
theorem computeIndexes_lt (hash1 hash2 k size : ℕ) (hsize : 0 < size) :
    ∀ j ∈ computeIndexes hash1 hash2 k size, j < size := by
  intro j hj
  rw [computeIndexes_eq_map] at hj
  obtain ⟨i, _, rfl⟩ := List.mem_map.mp hj
  exact Nat.mod_lt _ hsize

/-- The unbounded accumulator reduced modulo `2 ^ 64` is exactly the
wrapping 64-bit accumulator. -/
theorem hashAccWrap_eq_mod (hash1 hash2 : ℕ) (i : ℕ) :
    hashAccWrap hash1 hash2 i = hashAcc hash1 hash2 i % 2 ^ 64 := by
  induction i with
  | zero => rfl
  | succ i ih => rw [hashAccWrap, ih, hashAcc]; exact Nat.mod_add_mod _ _ _

/-- The flat index list of a batch has `k` entries per item. -/
theorem getAllIndexes_length (hashFn : α → ℕ × ℕ) (k size : ℕ)
    (items : List α) :
    (getAllIndexes hashFn k size items).length = items.length * k := by
  induction items with
  | nil => simp [getAllIndexes]
  | cons x xs ih =>
    simp only [getAllIndexes, List.flatMap_cons, List.length_append,
      List.length_cons] at *
    rw [computeIndexes_length, ih]
    ring

/-- Reassembling the per-item slices of `addAll` gives back the flat index
list, provided the list has exactly `k` indices per item. -/
theorem sliceOps_eq_self {k : ℕ} :
    ∀ (n : ℕ) (l : List ℕ), l.length = n * k → sliceOps l n k = l := by
  intro n
  induction n with
  | zero =>
    intro l h
    have : l = [] := List.length_eq_zero.mp (by simpa using h)
    simp [sliceOps, this]
  | succ n ih =>
    intro l h
    rw [sliceOps, List.range_succ_eq_map, List.flatMap_cons, List.flatMap_map]
    have hrest : ((List.range n).flatMap fun i =>
        ((l.drop k).drop (i * k)).take k) = l.drop k := by
      have hlen : (l.drop k).length = n * k := by
        rw [List.length_drop, h]
        have : (n + 1) * k = n * k + k := by ring
        omega
      exact ih (l.drop k) hlen
    have hcong : ((List.range n).flatMap fun i => (l.drop (Nat.succ i * k)).take k)
        = (List.range n).flatMap fun i => ((l.drop k).drop (i * k)).take k := by
      refine List.flatMap_congr ?_
      intro i _
      rw [Nat.succ_mul, Nat.add_comm, ← List.drop_drop]
    rw [Nat.zero_mul, List.drop_zero, hcong, hrest, List.take_append_drop]

/-- Membership in the final bit set of a `SETBIT` batch: a position is set
afterwards iff it was set before or occurs among the batch offsets. -/
theorem mem_setbitBatch_fst {bits : Finset ℕ} {ops : List ℕ} {i : ℕ} :
    i ∈ (setbitBatch bits ops).1 ↔ i ∈ bits ∨ i ∈ ops := by
  induction ops generalizing bits with
  | nil => simp [setbitBatch]
  | cons idx rest ih =>
    simp only [setbitBatch, ih, Finset.mem_insert, List.mem_cons]
    tauto

/-- A `SETBIT` batch produces one reply per command. -/
theorem setbitBatch_snd_length (bits : Finset ℕ) (ops : List ℕ) :
    (setbitBatch bits ops).2.length = ops.length := by
  induction ops generalizing bits with
  | nil => rfl
  | cons idx rest ih => simp [setbitBatch, ih]

/-- When every offset of a `SETBIT` batch is already set, every reply
reports a previous value of 1. -/
theorem setbitBatch_snd_all_true {bits : Finset ℕ} {ops : List ℕ}
    (h : ∀ i ∈ ops, i ∈ bits) :
    ∀ b ∈ (setbitBatch bits ops).2, b = true := by
  induction ops generalizing bits with
  | nil => simp [setbitBatch]
  | cons idx rest ih =>
    simp only [setbitBatch, List.mem_cons, forall_eq_or_imp]
    constructor
    · simpa using h idx (List.mem_cons_self idx rest)
    · exact ih fun i hi => Finset.mem_insert_of_mem (h i (List.mem_cons_of_mem _ hi))

/-- The `i`-th group of `chunksOf` is the slice of `k` consecutive entries
starting at position `i * k`. -/
theorem chunksOf_eq_map (k : ℕ) :
    ∀ (n : ℕ) (l : List Bool),
      chunksOf k n l = (List.range n).map fun i => (l.drop (i * k)).take k := by
  intro n
  induction n with
  | zero => intro l; simp [chunksOf]
  | succ n ih =>
    intro l
    rw [chunksOf, List.range_succ_eq_map, List.map_cons, List.map_map, ih]
    refine congrArg₂ _ (by simp) (List.map_congr_left ?_)
    intro i _
    simp only [Function.comp]
    rw [Nat.succ_mul, Nat.add_comm, ← List.drop_drop]

/-- One full group of `k` replies advances the `addAll` counting loop by one
item: the count is bumped exactly when the flag was already set or some
reply in the group is `0`, and the flag is reset. -/
theorem countAddedGo_chunk {k : ℕ} (rest : List Bool) :
    ∀ (chunk : List Bool) (r : ℕ) (flag : Bool) (acc : ℕ),
      chunk ≠ [] → chunk.length ≤ k → k ∣ (r + chunk.length) →
      countAddedGo k (chunk ++ rest) r flag acc =
        countAddedGo k rest (r + chunk.length) false
          (if (flag || chunk.any fun b => !b) then acc + 1 else acc) := by
  intro chunk
  induction chunk with
  | nil => intro r flag acc hne _ _; exact absurd rfl hne
  | cons b tl ih =>
    intro r flag acc _ hlen hdvd
    cases tl with
    | nil =>
      have hmod : (r + 1) % k = 0 := Nat.mod_eq_zero_of_dvd (by simpa using hdvd)
      cases b <;> cases flag <;> simp [countAddedGo, hmod]
    | cons c tl' =>
      have hL : (b :: c :: tl').length = tl'.length + 2 := by simp
      have hne1 : ¬ (r + 1) % k = 0 := by
        intro hmod
        have h1 : k ∣ r + 1 := Nat.dvd_of_mod_eq_zero hmod
        have h2 : k ∣ tl'.length + 1 := by
          have hsub := Nat.dvd_sub' hdvd h1
          have harith : r + (b :: c :: tl').length - (r + 1) = tl'.length + 1 := by
            rw [hL]; omega
          rwa [harith] at hsub
        have hge := Nat.le_of_dvd (by omega) h2
        rw [hL] at hlen
        omega
      have hstep : countAddedGo k ((b :: c :: tl') ++ rest) r flag acc =
          countAddedGo k ((c :: tl') ++ rest) (r + 1)
            (if b = false then true else flag) acc := by
        simp only [List.cons_append, countAddedGo, if_neg hne1]
      have hlen' : (c :: tl').length ≤ k := by
        simp only [List.length_cons] at hlen ⊢; omega
      have hdvd' : k ∣ (r + 1) + (c :: tl').length := by
        have harith : (r + 1) + (c :: tl').length = r + (b :: c :: tl').length := by
          simp only [List.length_cons]; omega
        rw [harith]; exact hdvd
      rw [hstep, ih (r + 1) (if b = false then true else flag) acc
        (by simp) hlen' hdvd']
      have hidx : r + 1 + (c :: tl').length = r + (b :: c :: tl').length := by
        simp only [List.length_cons]; omega
      have hflag : ((if b = false then true else flag) || (c :: tl').any fun x => !x)
          = (flag || (b :: c :: tl').any fun x => !x) := by
        cases b <;> cases flag <;> simp
      rw [hidx, hflag]

/-- One full group of `k` replies advances the `containsAll` counting loop
by one item: the count is bumped exactly when the flag was still set and
every reply in the group is `1`, and the flag is reset to `true`. -/
theorem countPresentGo_chunk {k : ℕ} (rest : List Bool) :
    ∀ (chunk : List Bool) (r : ℕ) (flag : Bool) (acc : ℕ),
      chunk ≠ [] → chunk.length ≤ k → k ∣ (r + chunk.length) →
      countPresentGo k (chunk ++ rest) r flag acc =
        countPresentGo k rest (r + chunk.length) true
          (if (flag && chunk.all fun b => b) then acc + 1 else acc) := by
  intro chunk
  induction chunk with
  | nil => intro r flag acc hne _ _; exact absurd rfl hne
  | cons b tl ih =>
    intro r flag acc _ hlen hdvd
    cases tl with
    | nil =>
      have hmod : (r + 1) % k = 0 := Nat.mod_eq_zero_of_dvd (by simpa using hdvd)
      cases b <;> cases flag <;> simp [countPresentGo, hmod]
    | cons c tl' =>
      have hL : (b :: c :: tl').length = tl'.length + 2 := by simp
      have hne1 : ¬ (r + 1) % k = 0 := by
        intro hmod
        have h1 : k ∣ r + 1 := Nat.dvd_of_mod_eq_zero hmod
        have h2 : k ∣ tl'.length + 1 := by
          have hsub := Nat.dvd_sub' hdvd h1
          have harith : r + (b :: c :: tl').length - (r + 1) = tl'.length + 1 := by
            rw [hL]; omega
          rwa [harith] at hsub
        have hge := Nat.le_of_dvd (by omega) h2
        rw [hL] at hlen
        omega
      have hstep : countPresentGo k ((b :: c :: tl') ++ rest) r flag acc =
          countPresentGo k ((c :: tl') ++ rest) (r + 1)
            (if b = false then false else flag) acc := by
        simp only [List.cons_append, countPresentGo, if_neg hne1]
      have hlen' : (c :: tl').length ≤ k := by
        simp only [List.length_cons] at hlen ⊢; omega
      have hdvd' : k ∣ (r + 1) + (c :: tl').length := by
        have harith : (r + 1) + (c :: tl').length = r + (b :: c :: tl').length := by
          simp only [List.length_cons]; omega
        rw [harith]; exact hdvd
      rw [hstep, ih (r + 1) (if b = false then false else flag) acc
        (by simp) hlen' hdvd']
      have hidx : r + 1 + (c :: tl').length = r + (b :: c :: tl').length := by
        simp only [List.length_cons]; omega
      have hflag : ((if b = false then false else flag) && (c :: tl').all fun x => x)
          = (flag && (b :: c :: tl').all fun x => x) := by
        cases b <;> cases flag <;> simp
      rw [hidx, hflag]

/-- Run over a reply list of exactly `n` groups of `k`, the `addAll`
counting loop adds one per group containing a `0` reply. -/
theorem countAddedGo_chunksOf {k : ℕ} :
    ∀ (n : ℕ) (res : List Bool) (r acc : ℕ), res.length = n * k → 0 < k →
      k ∣ r →
      countAddedGo k res r false acc =
        acc + ((chunksOf k n res).countP fun c => c.any fun b => !b) := by
  intro n
  induction n with
  | zero =>
    intro res r acc hlen _ _
    have hres : res = [] := List.length_eq_zero.mp (by simpa using hlen)
    simp [hres, chunksOf, countAddedGo]
  | succ n ih =>
    intro res r acc hlen hk hdvd
    have hnk : (n + 1) * k = n * k + k := by ring
    have hk_le : k ≤ res.length := by omega
    have htake_len : (res.take k).length = k := by
      rw [List.length_take]; omega
    have htake_ne : res.take k ≠ [] := by
      apply List.ne_nil_of_length_pos; omega
    have hdvd' : k ∣ r + (res.take k).length := by
      rw [htake_len]; exact Nat.dvd_add hdvd dvd_rfl
    conv_lhs => rw [← List.take_append_drop k res]
    rw [countAddedGo_chunk (res.drop k) (res.take k) r false acc htake_ne
      (by omega) hdvd']
    have hdrop_len : (res.drop k).length = n * k := by
      rw [List.length_drop]; omega
    rw [htake_len, ih (res.drop k) (r + k) _ hdrop_len hk
      (Nat.dvd_add hdvd dvd_rfl)]
    rw [chunksOf, List.countP_cons]
    simp only [Bool.false_or]
    by_cases hP : ((res.take k).any fun b => !b) = true
    · simp only [hP, if_true]; omega
    · simp only [hP, if_false, Bool.false_eq_true]; omega

/-- Run over a reply list of exactly `n` groups of `k`, the `containsAll`
counting loop adds one per group whose replies are all `1`. -/
theorem countPresentGo_chunksOf {k : ℕ} :
    ∀ (n : ℕ) (res : List Bool) (r acc : ℕ), res.length = n * k → 0 < k →
      k ∣ r →
      countPresentGo k res r true acc =
        acc + ((chunksOf k n res).countP fun c => c.all fun b => b) := by
  intro n
  induction n with
  | zero =>
    intro res r acc hlen _ _
    have hres : res = [] := List.length_eq_zero.mp (by simpa using hlen)
    simp [hres, chunksOf, countPresentGo]
  | succ n ih =>
    intro res r acc hlen hk hdvd
    have hnk : (n + 1) * k = n * k + k := by ring
    have hk_le : k ≤ res.length := by omega
    have htake_len : (res.take k).length = k := by
      rw [List.length_take]; omega
    have htake_ne : res.take k ≠ [] := by
      apply List.ne_nil_of_length_pos; omega
    have hdvd' : k ∣ r + (res.take k).length := by
      rw [htake_len]; exact Nat.dvd_add hdvd dvd_rfl
    conv_lhs => rw [← List.take_append_drop k res]
    rw [countPresentGo_chunk (res.drop k) (res.take k) r true acc htake_ne
      (by omega) hdvd']
    have hdrop_len : (res.drop k).length = n * k := by
      rw [List.length_drop]; omega
    rw [htake_len, ih (res.drop k) (r + k) _ hdrop_len hk
      (Nat.dvd_add hdvd dvd_rfl)]
    rw [chunksOf, List.countP_cons]
    simp only [Bool.true_and]
    by_cases hP : ((res.take k).all fun b => b) = true
    · simp only [hP, if_true]; omega
    · simp only [hP, if_false, Bool.false_eq_true]; omega

/-- When every reply of the batch reports a previous value of 1, the
`addAll` counting loop never counts anything. -/
theorem countAddedGo_of_all_true {k : ℕ} :
    ∀ (res : List Bool) (r acc : ℕ), (∀ b ∈ res, b = true) →
      countAddedGo k res r false acc = acc := by
  intro res
  induction res with
  | nil => intro r acc _; rfl
  | cons b rest ih =>
    intro r acc hall
    have hb : b = true := hall b (List.mem_cons_self _ _)
    subst hb
    have hrest : ∀ x ∈ rest, x = true := fun x hx =>
      hall x (List.mem_cons_of_mem _ hx)
    by_cases hmod : (r + 1) % k = 0 <;>
      simp [countAddedGo, hmod, ih _ _ hrest]

/-- A non-empty `addAll` from a state with a loaded cache reduces to one
`SETBIT` batch whose replies feed the counting loop. -/
theorem addAll_ok_of_cached (hashFn : α → ℕ × ℕ) (st : FilterState)
    (items : List α) (hsz : ¬st.size = 0) (hne : ¬items.length = 0) :
    addAll hashFn st items =
      .ok (countAddedGo st.hashIterations (addAllReplies hashFn st items) 0 false 0,
        { st with store := { st.store with
            bits := some (setbitBatch (st.store.bits.getD ∅)
              (sliceOps (getAllIndexes hashFn st.hashIterations st.size items)
                items.length st.hashIterations)).1 } }) := by
  simp only [addAll, addAllReplies, ensureConfigLoaded, if_neg hsz, if_neg hne]

/-- A non-empty `containsAll` from a state with a loaded cache reduces to
one `GETBIT` batch whose replies feed the counting loop; the state is not
changed. -/
theorem containsAll_ok_of_cached (hashFn : α → ℕ × ℕ) (st : FilterState)
    (items : List α) (hsz : ¬st.size = 0) (hne : ¬items.length = 0) :
    containsAll hashFn st items =
      .ok (countPresentGo st.hashIterations
        (containsAllReplies hashFn st items) 0 true 0, st) := by
  simp only [containsAll, containsAllReplies, ensureConfigLoaded,
    if_neg hsz, if_neg hne]

/-- C2: for every `hash1`, `hash2`, every `k` and every size `m ≥ 1`,
`computeIndexes` returns exactly `k` indices, each in `[0, m)`; the `i`-th
index is the accumulator reduced to its low 63 bits and taken mod `m`,
where the accumulator starts at `hash1` and gains `hash2` after even
iterations and `hash1` after odd ones; and the low 63 bits of the unbounded
bigint accumulator agree with those of the wrapping 64-bit accumulator. -/
theorem computeIndexes_correct (hash1 hash2 k m : ℕ) (hm : 1 ≤ m) :
    (computeIndexes hash1 hash2 k m).length = k ∧
    (∀ j ∈ computeIndexes hash1 hash2 k m, j < m) ∧
    computeIndexes hash1 hash2 k m =
      (List.range k).map (fun i => hashAcc hash1 hash2 i % 2 ^ 63 % m) ∧
    ∀ i, hashAcc hash1 hash2 i % 2 ^ 63 = hashAccWrap hash1 hash2 i % 2 ^ 63 := by
  refine ⟨computeIndexes_length _ _ _ _, computeIndexes_lt _ _ _ _ hm,
    computeIndexes_eq_map _ _ _ _, fun i => ?_⟩
  rw [hashAccWrap_eq_mod, Nat.mod_mod_of_dvd _ (pow_dvd_pow 2 (by norm_num))]

/-- Witness for C2 at `hash1 = 5`, `hash2 = 9`, `k = 2`, `m = 3`. -/
theorem computeIndexes_correct_witness :
    1 ≤ 3 ∧
    ((computeIndexes 5 9 2 3).length = 2 ∧
    (∀ j ∈ computeIndexes 5 9 2 3, j < 3) ∧
    computeIndexes 5 9 2 3 =
      (List.range 2).map (fun i => hashAcc 5 9 i % 2 ^ 63 % 3) ∧
    ∀ i, hashAcc 5 9 i % 2 ^ 63 = hashAccWrap 5 9 i % 2 ^ 63) :=
  ⟨by norm_num, computeIndexes_correct 5 9 2 3 (by norm_num)⟩

/-- C3: a non-empty `addAll` with cached `hashIterations ≥ 1` returns
exactly the number of items whose group of `k` consecutive batch replies
(positions `i*k .. i*k+k-1`) contains a reported previous value of `0`,
and that count is at most the number of items. -/
theorem addAll_newly_added_count {α : Type*} (hashFn : α → ℕ × ℕ)
    (st : FilterState) (items : List α) (c : ℕ) (st' : FilterState)
    (hk : 0 < st.hashIterations) (hsz : 0 < st.size) (hne : items ≠ [])
    (h : addAll hashFn st items = .ok (c, st')) :
    c = (List.range items.length).countP (fun i =>
        (((addAllReplies hashFn st items).drop (i * st.hashIterations)).take
          st.hashIterations).any fun b => !b) ∧
      c ≤ items.length := by
  have hlen0 : ¬items.length = 0 := fun h0 => hne (List.length_eq_zero.mp h0)
  rw [addAll_ok_of_cached hashFn st items (by omega) hlen0] at h
  simp only [Except.ok.injEq, Prod.mk.injEq] at h
  have hc : c = countAddedGo st.hashIterations
      (addAllReplies hashFn st items) 0 false 0 := h.1.symm
  have hreplen : (addAllReplies hashFn st items).length =
      items.length * st.hashIterations := by
    rw [addAllReplies, setbitBatch_snd_length,
      sliceOps_eq_self items.length _ (getAllIndexes_length _ _ _ _),
      getAllIndexes_length]
  have hcount := countAddedGo_chunksOf items.length
    (addAllReplies hashFn st items) 0 0 hreplen hk (dvd_zero _)
  rw [chunksOf_eq_map, List.countP_map, Nat.zero_add] at hcount
  refine ⟨by rw [hc, hcount]; rfl, ?_⟩
  rw [hc, hcount]
  calc ((List.range items.length).countP _) ≤ (List.range items.length).length :=
        List.countP_le_length _
    _ = items.length := List.length_range _

/-- Witness for C3: one item hashing to `(0, 0)` with `k = 1`, `m = 1`
against an empty store; the single reply is `0`, so the count is `1`. -/
theorem addAll_newly_added_count_witness :
    0 < 1 ∧ ([((0 : ℕ), (0 : ℕ))] ≠ ([] : List (ℕ × ℕ))) ∧
    (1 = (List.range (1 : ℕ)).countP (fun i =>
        (((addAllReplies id
            { size := 1, hashIterations := 1,
              store := { config := none, bits := none } }
            [((0 : ℕ), (0 : ℕ))]).drop (i * 1)).take 1).any fun b => !b) ∧
      1 ≤ 1) :=
  ⟨by norm_num, by simp,
    addAll_newly_added_count id
      { size := 1, hashIterations := 1,
        store := { config := none, bits := none } }
      [((0 : ℕ), (0 : ℕ))] 1 _ (by norm_num) (by norm_num) (by simp) rfl⟩

/-- C4: a non-empty `containsAll` with cached `hashIterations ≥ 1` returns
exactly the number of items whose group of `k` consecutive batch replies
(positions `i*k .. i*k+k-1`) reads all `1`; an item with any reply `0` is
not counted. -/
theorem containsAll_present_count {α : Type*} (hashFn : α → ℕ × ℕ)
    (st : FilterState) (items : List α) (c : ℕ) (st' : FilterState)
    (hk : 0 < st.hashIterations) (hsz : 0 < st.size) (hne : items ≠ [])
    (h : containsAll hashFn st items = .ok (c, st')) :
    c = (List.range items.length).countP (fun i =>
        (((containsAllReplies hashFn st items).drop (i * st.hashIterations)).take
          st.hashIterations).all fun b => b) := by
  have hlen0 : ¬items.length = 0 := fun h0 => hne (List.length_eq_zero.mp h0)
  rw [containsAll_ok_of_cached hashFn st items (by omega) hlen0] at h
  simp only [Except.ok.injEq, Prod.mk.injEq] at h
  have hc : c = countPresentGo st.hashIterations
      (containsAllReplies hashFn st items) 0 true 0 := h.1.symm
  have hreplen : (containsAllReplies hashFn st items).length =
      items.length * st.hashIterations := by
    rw [containsAllReplies, List.length_map, getAllIndexes_length]
  have hcount := countPresentGo_chunksOf items.length
    (containsAllReplies hashFn st items) 0 0 hreplen hk (dvd_zero _)
  rw [chunksOf_eq_map, List.countP_map, Nat.zero_add] at hcount
  rw [hc, hcount]
  rfl

/-- Witness for C4: one item hashing to `(0, 0)` with `k = 1`, `m = 1`
against a store whose bit 0 is set; the single reply is `1`, count `1`. -/
theorem containsAll_present_count_witness :
    0 < 1 ∧ ([((0 : ℕ), (0 : ℕ))] ≠ ([] : List (ℕ × ℕ))) ∧
    1 = (List.range (1 : ℕ)).countP (fun i =>
        (((containsAllReplies id
            { size := 1, hashIterations := 1,
              store := { config := none, bits := some {0} } }
            [((0 : ℕ), (0 : ℕ))]).drop (i * 1)).take 1).all fun b => b) :=
  ⟨by norm_num, by simp,
    containsAll_present_count id
      { size := 1, hashIterations := 1,
        store := { config := none, bits := some {0} } }
      [((0 : ℕ), (0 : ℕ))] 1 _ (by norm_num) (by norm_num) (by simp) rfl⟩

/-- C1: no false negatives.  If `addAll` succeeds on a list containing `x`
from a state whose cached `size` and `hashIterations` are positive, then
`contains x` on the resulting state returns `true`: `addAll` set every one
of the `k` bit positions of `x`, and `containsAll` classifies `x` present
exactly when all `k` of them read `1`. -/
theorem contains_after_addAll {α : Type*} (hashFn : α → ℕ × ℕ)
    (st : FilterState) (items : List α) (x : α) (c : ℕ) (st' : FilterState)
    (hk : 0 < st.hashIterations) (hsz : 0 < st.size) (hx : x ∈ items)
    (h : addAll hashFn st items = .ok (c, st')) :
    contains hashFn st' x = .ok (true, st') := by
  have hne : items ≠ [] := List.ne_nil_of_mem hx
  have hlen0 : ¬items.length = 0 := fun h0 => hne (List.length_eq_zero.mp h0)
  rw [addAll_ok_of_cached hashFn st items (by omega) hlen0] at h
  simp only [Except.ok.injEq, Prod.mk.injEq] at h
  obtain ⟨hc, hst'⟩ := h
  subst hst'
  have hCA : containsAll hashFn
      { st with store := { st.store with
          bits := some (setbitBatch (st.store.bits.getD ∅)
            (sliceOps (getAllIndexes hashFn st.hashIterations st.size items)
              items.length st.hashIterations)).1 } } [x] =
      .ok (1,
        { st with store := { st.store with
          bits := some (setbitBatch (st.store.bits.getD ∅)
            (sliceOps (getAllIndexes hashFn st.hashIterations st.size items)
              items.length st.hashIterations)).1 } }) := by
    rw [containsAll_ok_of_cached hashFn _ [x] (by simp; omega) (by simp)]
    have hall : ∀ b ∈ containsAllReplies hashFn
        { st with store := { st.store with
          bits := some (setbitBatch (st.store.bits.getD ∅)
            (sliceOps (getAllIndexes hashFn st.hashIterations st.size items)
              items.length st.hashIterations)).1 } } [x], b = true := by
      intro b hb
      rw [containsAllReplies] at hb
      obtain ⟨idx, hidx, rfl⟩ := List.mem_map.mp hb
      simp only [Option.getD_some]
      apply decide_eq_true
      apply mem_setbitBatch_fst.mpr
      right
      rw [sliceOps_eq_self items.length _ (getAllIndexes_length _ _ _ _)]
      simp only [getAllIndexes, List.flatMap_cons, List.flatMap_nil,
        List.append_nil] at hidx
      exact List.mem_flatMap.mpr ⟨x, hx, hidx⟩
    have hreplen : (containsAllReplies hashFn
        { st with store := { st.store with
          bits := some (setbitBatch (st.store.bits.getD ∅)
            (sliceOps (getAllIndexes hashFn st.hashIterations st.size items)
              items.length st.hashIterations)).1 } } [x]).length =
        1 * st.hashIterations := by
      rw [containsAllReplies, List.length_map, getAllIndexes_length]
      simp
    have hcnt := countPresentGo_chunksOf 1 (containsAllReplies hashFn
        { st with store := { st.store with
          bits := some (setbitBatch (st.store.bits.getD ∅)
            (sliceOps (getAllIndexes hashFn st.hashIterations st.size items)
              items.length st.hashIterations)).1 } } [x]) 0 0 hreplen hk
      (dvd_zero _)
    rw [chunksOf, chunksOf, List.countP_cons] at hcnt
    have htake : ((containsAllReplies hashFn
        { st with store := { st.store with
          bits := some (setbitBatch (st.store.bits.getD ∅)
            (sliceOps (getAllIndexes hashFn st.hashIterations st.size items)
              items.length st.hashIterations)).1 } } [x]).take
            st.hashIterations).all (fun b => b) = true := by
      apply List.all_eq_true.mpr
      intro b hb
      exact hall b (List.mem_of_mem_take hb)
    rw [htake] at hcnt
    simp only [List.countP_nil, if_true] at hcnt
    rw [hcnt]
  simp only [contains, hCA]
  rfl

/-- Witness for C1: one item hashing to `(0, 0)` with `k = 1`, `m = 1`
against an empty store. -/
theorem contains_after_addAll_witness :
    0 < 1 ∧ (((0 : ℕ), (0 : ℕ)) ∈ [((0 : ℕ), (0 : ℕ))]) ∧
    contains id
      { size := 1, hashIterations := 1,
        store := { config := none,
                   bits := some (setbitBatch (∅ : Finset ℕ)
                     (sliceOps (getAllIndexes id 1 1 [((0 : ℕ), (0 : ℕ))]) 1 1)).1 } }
      ((0 : ℕ), (0 : ℕ)) =
      .ok (true,
        { size := 1, hashIterations := 1,
          store := { config := none,
                     bits := some (setbitBatch (∅ : Finset ℕ)
                       (sliceOps (getAllIndexes id 1 1 [((0 : ℕ), (0 : ℕ))]) 1 1)).1 } }) :=
  ⟨by norm_num, by simp,
    contains_after_addAll id
      { size := 1, hashIterations := 1,
        store := { config := none, bits := none } }
      [((0 : ℕ), (0 : ℕ))] ((0 : ℕ), (0 : ℕ)) 1 _ (by norm_num) (by norm_num)
      (by simp) rfl⟩

/-- A successful `ensureConfigLoaded` either had a loaded cache already or
loaded `size` and `hashIterations` from the stored config. -/
theorem ensureConfigLoaded_cases (st st₁ : FilterState)
    (h : ensureConfigLoaded st = .ok st₁) :
    (¬st.size = 0 ∧ st₁ = st) ∨
      (st.size = 0 ∧ ∃ cfg, st.store.config = some cfg ∧
        st₁ = { st with size := cfg.size,
                        hashIterations := cfg.hashIterations }) := by
  by_cases h0 : st.size = 0
  · right
    refine ⟨h0, ?_⟩
    rw [ensureConfigLoaded, if_pos h0] at h
    cases hc : st.store.config with
    | none =>
      simp only [readConfig, hc] at h
      exact Except.noConfusion h
    | some cfg =>
      simp only [readConfig, hc, Except.ok.injEq] at h
      exact ⟨cfg, rfl, h.symm⟩
  · left
    rw [ensureConfigLoaded, if_neg h0] at h
    simp only [Except.ok.injEq] at h
    exact ⟨h0, h.symm⟩

/-- C9: repeating `addAll` with the identical list immediately after a
completed first call (no interleaving writes) returns exactly `0`: every
bit position of every item was already set to `1` by the first call, so no
`SETBIT` reply of the second call reports a previous value of `0`. -/
theorem addAll_repeat_zero {α : Type*} (hashFn : α → ℕ × ℕ)
    (st : FilterState) (items : List α) (c₁ c₂ : ℕ) (st' st'' : FilterState)
    (hne : items ≠ [])
    (h1 : addAll hashFn st items = .ok (c₁, st'))
    (h2 : addAll hashFn st' items = .ok (c₂, st'')) :
    c₂ = 0 := by
  have hlen0 : ¬items.length = 0 := fun h0 => hne (List.length_eq_zero.mp h0)
  rw [addAll, if_neg hlen0] at h1 h2
  cases hE1 : ensureConfigLoaded st with
  | error e => simp [hE1] at h1
  | ok st₁ =>
  simp only [hE1, Except.ok.injEq, Prod.mk.injEq] at h1
  obtain ⟨hc1, hst'⟩ := h1
  cases hE2 : ensureConfigLoaded st' with
  | error e => simp [hE2] at h2
  | ok st₂ =>
  simp only [hE2, Except.ok.injEq, Prod.mk.injEq] at h2
  obtain ⟨hc2, _⟩ := h2
  have hs'size : st'.size = st₁.size := by rw [← hst']
  have hs'hi : st'.hashIterations = st₁.hashIterations := by rw [← hst']
  have hs'c : st'.store.config = st₁.store.config := by rw [← hst']
  -- the second ensure leaves the cached parameters of the first call and
  -- the post-batch store in place
  have hfields : st₂.size = st₁.size ∧
      st₂.hashIterations = st₁.hashIterations ∧ st₂.store = st'.store := by
    rcases ensureConfigLoaded_cases st' st₂ hE2 with ⟨_, rfl⟩ | ⟨hz, cfg, hcfg, rfl⟩
    · exact ⟨hs'size, hs'hi, rfl⟩
    · rcases ensureConfigLoaded_cases st st₁ hE1 with ⟨hnz, rfl⟩ | ⟨_, cfg', hcfg', hst₁⟩
      · rw [hs'size] at hz; exact absurd hz hnz
      · obtain rfl : cfg' = cfg := by
          have hA : st₁.store.config = some cfg' := by rw [hst₁]; exact hcfg'
          have hB : st₁.store.config = some cfg := by rw [← hs'c]; exact hcfg
          exact Option.some.inj (hA.symm.trans hB)
        refine ⟨?_, ?_, rfl⟩
        · show cfg'.size = st₁.size
          rw [hst₁]
        · show cfg'.hashIterations = st₁.hashIterations
          rw [hst₁]
  obtain ⟨hsz2, hhi2, hstore2⟩ := hfields
  -- the second batch runs over the same index list against the bit set
  -- produced by the first batch, which already contains every index
  rw [hsz2, hhi2, hstore2] at hc2
  have hbits : st'.store.bits = some (setbitBatch (st₁.store.bits.getD ∅)
      (sliceOps (getAllIndexes hashFn st₁.hashIterations st₁.size items)
        items.length st₁.hashIterations)).1 := by
    rw [← hst']
  rw [hbits] at hc2
  simp only [Option.getD_some] at hc2
  rw [sliceOps_eq_self items.length _ (getAllIndexes_length _ _ _ _)] at hc2
  have hall : ∀ b ∈ (setbitBatch
      (setbitBatch (st₁.store.bits.getD ∅)
        (getAllIndexes hashFn st₁.hashIterations st₁.size items)).1
      (getAllIndexes hashFn st₁.hashIterations st₁.size items)).2, b = true := by
    apply setbitBatch_snd_all_true
    intro i hi
    exact mem_setbitBatch_fst.mpr (Or.inr hi)
  rw [← hc2]
  exact countAddedGo_of_all_true _ _ _ hall

/-- Witness for C9: the item `(0, 0)` with `k = 1`, `m = 1`; the second
`addAll` reports `0` newly added. -/
theorem addAll_repeat_zero_witness :
    ([((0 : ℕ), (0 : ℕ))] ≠ ([] : List (ℕ × ℕ))) ∧ (0 : ℕ) = 0 :=
  ⟨by simp,
    addAll_repeat_zero id
      { size := 1, hashIterations := 1,
        store := { config := none, bits := none } }
      [((0 : ℕ), (0 : ℕ))] 1 0
      { size := 1, hashIterations := 1,
        store := { config := none,
                   bits := some (setbitBatch (∅ : Finset ℕ)
                     (sliceOps (getAllIndexes id 1 1 [((0 : ℕ), (0 : ℕ))]) 1 1)).1 } }
      _ (by simp) rfl rfl⟩

/-- Rational bounds for the 13-term Taylor sum of `log (5/4)`. -/
theorem sum_five_bounds :
    (0.2231435512 : ℝ) < (∑ i ∈ Finset.range 13, (1/5 : ℝ) ^ (i + 1) / (i + 1)) ∧
      (∑ i ∈ Finset.range 13, (1/5 : ℝ) ^ (i + 1) / (i + 1)) < 0.2231435514 := by
  constructor <;> norm_num [Finset.sum_range_succ]

/-- Rational bounds for the 18-term Taylor sum of `log (3/2)`. -/
theorem sum_three_bounds :
    (0.4054651079 : ℝ) < (∑ i ∈ Finset.range 18, (1/3 : ℝ) ^ (i + 1) / (i + 1)) ∧
      (∑ i ∈ Finset.range 18, (1/3 : ℝ) ^ (i + 1) / (i + 1)) < 0.4054651082 := by
  constructor <;> norm_num [Finset.sum_range_succ]

/-- Decimal bounds for `log (5/4)`. -/
theorem log_five_quarters_bounds :
    (0.2231435509 : ℝ) < Real.log (5/4) ∧ Real.log (5/4) < 0.2231435517 := by
  have h := Real.abs_log_sub_add_sum_range_le (x := (1/5 : ℝ)) (by
    rw [abs_of_pos] <;> norm_num) 13
  rw [show |(1/5 : ℝ)| = 1/5 from abs_of_pos (by norm_num),
    show (1 - (1/5 : ℝ)) = ((5/4 : ℝ))⁻¹ by norm_num, Real.log_inv] at h
  rw [abs_le] at h
  obtain ⟨h1, h2⟩ := h
  have hs := sum_five_bounds
  have heps : ((1 : ℝ)/5) ^ (13 + 1) / (1 - 1/5) ≤ 0.00000000021 := by norm_num
  constructor <;> linarith [hs.1, hs.2]

/-- Decimal bounds for `log (3/2)`. -/
theorem log_three_halves_bounds :
    (0.4054651065 : ℝ) < Real.log (3/2) ∧ Real.log (3/2) < 0.4054651096 := by
  have h := Real.abs_log_sub_add_sum_range_le (x := (1/3 : ℝ)) (by
    rw [abs_of_pos] <;> norm_num) 18
  rw [show |(1/3 : ℝ)| = 1/3 from abs_of_pos (by norm_num),
    show (1 - (1/3 : ℝ)) = ((3/2 : ℝ))⁻¹ by norm_num, Real.log_inv] at h
  rw [abs_le] at h
  obtain ⟨h1, h2⟩ := h
  have hs := sum_three_bounds
  have heps : ((1 : ℝ)/3) ^ (18 + 1) / (1 - 1/3) ≤ 0.0000000013 := by norm_num
  constructor <;> linarith [hs.1, hs.2]

/-- Decimal bounds for `log (100/3)`, via
`100/3 = 2^5 * (5/4)^2 / (3/2)`. -/
theorem log_hundred_thirds_bounds :
    (3.50655789 : ℝ) < Real.log (100/3) ∧ Real.log (100/3) < 3.50655791 := by
  have hid : Real.log (100/3 : ℝ) =
      5 * Real.log 2 + 2 * Real.log (5/4) - Real.log (3/2) := by
    rw [show (100/3 : ℝ) = 2 ^ 5 * (5/4) ^ 2 / (3/2) by norm_num]
    rw [Real.log_div (by positivity) (by norm_num),
      Real.log_mul (by positivity) (by positivity),
      Real.log_pow, Real.log_pow]
    push_cast
    ring
  rw [hid]
  have h2lo := Real.log_two_gt_d9
  have h2hi := Real.log_two_lt_d9
  have h54 := log_five_quarters_bounds
  have h32 := log_three_halves_bounds
  constructor <;> linarith [h54.1, h54.2, h32.1, h32.2]

/-- Decimal bounds for `(log 2) ^ 2`. -/
theorem log_two_sq_bounds :
    (0.4804530135 : ℝ) < Real.log 2 ^ 2 ∧ Real.log 2 ^ 2 < 0.4804530143 := by
  have h1 := Real.log_two_gt_d9
  have h2 := Real.log_two_lt_d9
  constructor
  · nlinarith [sq_nonneg (Real.log 2 - 0.6931471803)]
  · nlinarith [sq_nonneg (0.6931471808 - Real.log 2)]

/-- The bit-size formula for a probability `p ∈ (0, 1]` in terms of
`log p⁻¹`. -/
theorem optimalNumOfBits_eq_floor (n : ℕ) (p : ℝ) (hp : p ≠ 0) :
    optimalNumOfBits n p = ⌊(n : ℝ) * Real.log p⁻¹ / Real.log 2 ^ 2⌋ := by
  rw [optimalNumOfBits]
  simp only [if_neg hp]
  rw [Real.log_inv]
  ring_nf

/-- `optimalNumOfBits 100 0.03 = 729`. -/
theorem optimalNumOfBits_100 : optimalNumOfBits 100 (0.03 : ℝ) = 729 := by
  rw [optimalNumOfBits_eq_floor 100 (0.03 : ℝ) (by norm_num),
    show ((0.03 : ℝ))⁻¹ = 100/3 by norm_num]
  have hT := log_two_sq_bounds
  have hL := log_hundred_thirds_bounds
  have hTpos : (0 : ℝ) < Real.log 2 ^ 2 := by nlinarith
  rw [Int.floor_eq_iff]
  push_cast
  constructor
  · rw [le_div_iff₀ hTpos]
    nlinarith
  · rw [div_lt_iff₀ hTpos]
    nlinarith

/-- `optimalNumOfBits 10000000 0.03 = 72984408`. -/
theorem optimalNumOfBits_1e7 :
    optimalNumOfBits 10000000 (0.03 : ℝ) = 72984408 := by
  rw [optimalNumOfBits_eq_floor 10000000 (0.03 : ℝ) (by norm_num),
    show ((0.03 : ℝ))⁻¹ = 100/3 by norm_num]
  have hT := log_two_sq_bounds
  have hL := log_hundred_thirds_bounds
  have hTpos : (0 : ℝ) < Real.log 2 ^ 2 := by nlinarith
  rw [Int.floor_eq_iff]
  push_cast
  constructor
  · rw [le_div_iff₀ hTpos]
    nlinarith
  · rw [div_lt_iff₀ hTpos]
    nlinarith

/-- `optimalNumOfHashFunctions 100 729 = 5`. -/
theorem optimalNumOfHashFunctions_100 :
    optimalNumOfHashFunctions 100 729 = 5 := by
  rw [optimalNumOfHashFunctions, jsRound]
  have h1 := Real.log_two_gt_d9
  have h2 := Real.log_two_lt_d9
  have hfl : ⌊(729 : ℕ) / ((100 : ℕ) : ℝ) * Real.log 2 + 1/2⌋ = 5 := by
    rw [Int.floor_eq_iff]
    push_cast
    constructor <;> nlinarith
  rw [hfl]
  norm_num

/-- `optimalNumOfHashFunctions 10000000 72984408 = 5`. -/
theorem optimalNumOfHashFunctions_1e7 :
    optimalNumOfHashFunctions 10000000 72984408 = 5 := by
  rw [optimalNumOfHashFunctions, jsRound]
  have h1 := Real.log_two_gt_d9
  have h2 := Real.log_two_lt_d9
  have hfl : ⌊(72984408 : ℕ) / ((10000000 : ℕ) : ℝ) * Real.log 2 + 1/2⌋ = 5 := by
    rw [Int.floor_eq_iff]
    push_cast
    constructor <;> nlinarith
  rw [hfl]
  norm_num

/-- C8: `optimalNumOfBits` and `optimalNumOfHashFunctions` are (pure,
deterministic) functions of their numeric inputs; on `n = 100, p = 0.03`
they yield `m = 729` and `k = 5`, and on `n = 10000000, p = 0.03` they
yield `m = 72984408` and `k = 5`, per `m = ⌊-n * ln p / ln 2 ^ 2⌋` and
`k = max 1 (round ((m / n) * ln 2))`. -/
theorem optimal_parameters_values :
    optimalNumOfBits 100 (0.03 : ℝ) = 729 ∧
    optimalNumOfHashFunctions 100 729 = 5 ∧
    optimalNumOfBits 10000000 (0.03 : ℝ) = 72984408 ∧
    optimalNumOfHashFunctions 10000000 72984408 = 5 :=
  ⟨optimalNumOfBits_100, optimalNumOfHashFunctions_100,
    optimalNumOfBits_1e7, optimalNumOfHashFunctions_1e7⟩

/-- `tryInit` fails on an out-of-range probability before anything else. -/
theorem tryInit_error_prob (st : FilterState) (n : ℕ) (p : ℝ)
    (hp : p ≤ 0 ∨ 1 < p) :
    tryInit st n p = .error .invalidProbability := by
  rw [tryInit, if_pos hp]

/-- `tryInit` fails on an invalid computed size before touching the store. -/
theorem tryInit_error_size (st : FilterState) (n : ℕ) (p : ℝ)
    (hp : ¬(p ≤ 0 ∨ 1 < p))
    (hs : optimalNumOfBits n p = 0 ∨ maxSize < optimalNumOfBits n p) :
    tryInit st n p = .error .invalidSize := by
  simp only [tryInit, if_neg hp, if_pos hs]

/-- A `tryInit` with valid parameters against an absent config key stores
the config, materializes the bit array, caches the computed values, and
reports `true`. -/
theorem tryInit_ok_fresh (st : FilterState) (n : ℕ) (p : ℝ)
    (hp : ¬(p ≤ 0 ∨ 1 < p))
    (hs : ¬(optimalNumOfBits n p = 0 ∨ maxSize < optimalNumOfBits n p))
    (hcfg : st.store.config = none) :
    tryInit st n p =
      .ok (true,
        { size := (optimalNumOfBits n p).toNat,
          hashIterations :=
            (optimalNumOfHashFunctions n (optimalNumOfBits n p).toNat).toNat,
          store := { config := some
                       { size := (optimalNumOfBits n p).toNat,
                         hashIterations :=
                           (optimalNumOfHashFunctions n
                             (optimalNumOfBits n p).toNat).toNat,
                         expectedInsertions := n,
                         falseProbability := p },
                     bits := some ((st.store.bits.getD ∅).erase 0) } }) := by
  simp only [tryInit, if_neg hp, if_neg hs, hcfg]

/-- A `tryInit` with valid parameters against an existing config key leaves
the store untouched, loads the stored config into the cache, and reports
`false`. -/
theorem tryInit_ok_existing (st : FilterState) (n : ℕ) (p : ℝ)
    (hp : ¬(p ≤ 0 ∨ 1 < p))
    (hs : ¬(optimalNumOfBits n p = 0 ∨ maxSize < optimalNumOfBits n p))
    (cfg : StoredConfig) (hcfg : st.store.config = some cfg) :
    tryInit st n p =
      .ok (false,
        { st with size := cfg.size, hashIterations := cfg.hashIterations }) := by
  simp only [tryInit, if_neg hp, if_neg hs, hcfg]

/-- C6: `tryInit` raises an error whenever `p` is outside `(0, 1]`, or the
computed size is `0`, or the computed size exceeds the maximum supported
length (`2 * Number.MAX_SAFE_INTEGER`); the `.error` result carries no
successor state — in this embedding an error leaves the store unread and
unwritten, matching the synchronous throw before any remote call. -/
theorem tryInit_invalid_raises (n : ℕ) (p : ℝ) (st : FilterState)
    (h : p ≤ 0 ∨ 1 < p ∨ optimalNumOfBits n p = 0 ∨
      maxSize < optimalNumOfBits n p) :
    ∃ e, tryInit st n p = .error e := by
  by_cases hp : p ≤ 0 ∨ 1 < p
  · exact ⟨_, tryInit_error_prob st n p hp⟩
  · have hs : optimalNumOfBits n p = 0 ∨ maxSize < optimalNumOfBits n p := by
      tauto
    exact ⟨_, tryInit_error_size st n p hp hs⟩

/-- Witness for C6 at `n = 1`, `p = 2` (probability above 1) against the
fresh state. -/
theorem tryInit_invalid_raises_witness :
    ((2 : ℝ) ≤ 0 ∨ (1 : ℝ) < 2 ∨ optimalNumOfBits 1 2 = 0 ∨
      maxSize < optimalNumOfBits 1 2) ∧
    ∃ e, tryInit initialState 1 2 = .error e :=
  ⟨Or.inr (Or.inl (by norm_num)),
    tryInit_invalid_raises 1 2 initialState (Or.inr (Or.inl (by norm_num)))⟩

/-- C10: for every `n > 0`, `tryInit n 1` always throws the size error:
`p = 1` passes the `(0, 1]` probability check, but the computed size
`⌊-n * ln 1 / ln 2 ^ 2⌋ = 0` fails the size validation, so a filter can
never be initialized with `p = 1` even though `1` is inside the documented
valid probability range. -/
theorem tryInit_p_one_throws (n : ℕ) (st : FilterState) (_hn : 0 < n) :
    tryInit st n 1 = .error .invalidSize := by
  have hp : ¬((1 : ℝ) ≤ 0 ∨ (1 : ℝ) < 1) := by norm_num
  have hsize : optimalNumOfBits n 1 = 0 := by
    rw [optimalNumOfBits]
    norm_num
  exact tryInit_error_size st n 1 hp (Or.inl hsize)

/-- Witness for C10 at `n = 1` against the fresh state. -/
theorem tryInit_p_one_throws_witness :
    0 < 1 ∧ tryInit initialState 1 1 = .error .invalidSize :=
  ⟨by norm_num, tryInit_p_one_throws 1 initialState (by norm_num)⟩

/-- `optimalNumOfBits 100 (1/2) = 144`. -/
theorem optimalNumOfBits_100_half : optimalNumOfBits 100 (1/2 : ℝ) = 144 := by
  rw [optimalNumOfBits_eq_floor 100 (1/2 : ℝ) (by norm_num),
    show ((1/2 : ℝ))⁻¹ = 2 by norm_num]
  have h1 := Real.log_two_gt_d9
  have h2 := Real.log_two_lt_d9
  have hT := log_two_sq_bounds
  have hTpos : (0 : ℝ) < Real.log 2 ^ 2 := by nlinarith
  rw [Int.floor_eq_iff]
  push_cast
  constructor
  · rw [le_div_iff₀ hTpos]
    nlinarith
  · rw [div_lt_iff₀ hTpos]
    nlinarith

/-- The pair `n = 100`, `p = 1/2` passes the `tryInit` validation. -/
theorem valid_100_half : validParams 100 (1/2 : ℝ) := by
  constructor
  · norm_num
  · rw [optimalNumOfBits_100_half]
    rw [maxSize]
    norm_num

/-- Counterexample to C5 as stated: after a successful first `tryInit`, a
second `tryInit` with an arbitrary `n, p` need not return `false` — with
`p = 2` it throws the probability error instead of returning `false`,
because parameter validation runs before the existence check. -/
theorem tryInit_second_call_throws :
    ∃ stA : FilterState,
      tryInit initialState 100 (1/2 : ℝ) = .ok (true, stA) ∧
      tryInit stA 5 (2 : ℝ) = .error .invalidProbability := by
  obtain ⟨hp, hs⟩ := valid_100_half
  exact ⟨_, tryInit_ok_fresh initialState 100 (1/2) hp hs rfl,
    tryInit_error_prob _ 5 2 (Or.inr (by norm_num))⟩

/-- C5 (amended): the first `tryInit` on a fresh store returns `true` and
writes the configuration; a second `tryInit` with any parameters that pass
validation returns `false`, leaves the stored configuration (and the whole
store) unchanged, and loads it into the caller's cache instead of
overwriting it. -/
theorem tryInit_twice_amended (st : FilterState) (n₁ n₂ : ℕ) (p₁ p₂ : ℝ)
    (hfresh : st.store.config = none)
    (hv₁ : validParams n₁ p₁) (hv₂ : validParams n₂ p₂) :
    ∃ st₁ st₂ cfg,
      tryInit st n₁ p₁ = .ok (true, st₁) ∧
      st₁.store.config = some cfg ∧
      cfg.size = (optimalNumOfBits n₁ p₁).toNat ∧
      cfg.hashIterations =
        (optimalNumOfHashFunctions n₁ (optimalNumOfBits n₁ p₁).toNat).toNat ∧
      cfg.expectedInsertions = n₁ ∧ cfg.falseProbability = p₁ ∧
      tryInit st₁ n₂ p₂ = .ok (false, st₂) ∧
      st₂.store = st₁.store ∧
      st₂.size = cfg.size ∧ st₂.hashIterations = cfg.hashIterations := by
  obtain ⟨hp₁, hs₁⟩ := hv₁
  obtain ⟨hp₂, hs₂⟩ := hv₂
  exact ⟨_, _, _, tryInit_ok_fresh st n₁ p₁ hp₁ hs₁ hfresh, rfl, rfl, rfl, rfl,
    rfl, tryInit_ok_existing _ n₂ p₂ hp₂ hs₂ _ rfl, rfl, rfl, rfl⟩

/-- Witness for the amended C5 at `n₁ = n₂ = 100`, `p₁ = p₂ = 1/2` against
the fresh state. -/
theorem tryInit_twice_amended_witness :
    (initialState.store.config = none) ∧ validParams 100 (1/2 : ℝ) ∧
    ∃ st₁ st₂ cfg,
      tryInit initialState 100 (1/2 : ℝ) = .ok (true, st₁) ∧
      st₁.store.config = some cfg ∧
      cfg.size = (optimalNumOfBits 100 (1/2 : ℝ)).toNat ∧
      cfg.hashIterations =
        (optimalNumOfHashFunctions 100
          (optimalNumOfBits 100 (1/2 : ℝ)).toNat).toNat ∧
      cfg.expectedInsertions = 100 ∧ cfg.falseProbability = (1/2 : ℝ) ∧
      tryInit st₁ 100 (1/2 : ℝ) = .ok (false, st₂) ∧
      st₂.store = st₁.store ∧
      st₂.size = cfg.size ∧ st₂.hashIterations = cfg.hashIterations :=
  ⟨rfl, valid_100_half,
    tryInit_twice_amended initialState 100 100 (1/2) (1/2) rfl
      valid_100_half valid_100_half⟩

/-- `ensureConfigLoaded` never touches the store. -/
theorem ensureConfigLoaded_ok_store (st st₁ : FilterState)
    (h : ensureConfigLoaded st = .ok st₁) : st₁.store = st.store := by
  rcases ensureConfigLoaded_cases st st₁ h with ⟨_, rfl⟩ | ⟨_, cfg, _, rfl⟩ <;> rfl

/-- `ensureConfigLoaded` preserves the state-machine invariant. -/
theorem ensureConfigLoaded_ok_inv {st st₁ : FilterState} (hinv : Inv st)
    (h : ensureConfigLoaded st = .ok st₁) : Inv st₁ := by
  rcases ensureConfigLoaded_cases st st₁ h with ⟨_, rfl⟩ | ⟨_, cfg, hcfg, rfl⟩
  · exact hinv
  · refine ⟨fun h0 => ?_, fun _ => ?_⟩
    · have hn : st.store.config = none := h0
      rw [hcfg] at hn
      exact Option.noConfusion hn
    · show st.store.config ≠ none
      rw [hcfg]
      simp

/-- A successful `tryInit` either initialized a fresh filter (config was
absent: the bit-array key is materialized by the `SETBIT _ 0 0` touch and
the config is written) or found an existing config and left the store
untouched. -/
theorem tryInit_ok_cases {st : FilterState} {n : ℕ} {p : ℝ} {b : Bool}
    {st' : FilterState} (h : tryInit st n p = .ok (b, st')) :
    (st.store.config = none ∧
      st'.store.bits = some ((st.store.bits.getD ∅).erase 0) ∧
      ∃ cfg, st'.store.config = some cfg) ∨
    (st.store.config ≠ none ∧ st'.store = st.store) := by
  by_cases hp : p ≤ 0 ∨ 1 < p
  · rw [tryInit_error_prob st n p hp] at h
    exact Except.noConfusion h
  · by_cases hs : optimalNumOfBits n p = 0 ∨ maxSize < optimalNumOfBits n p
    · rw [tryInit_error_size st n p hp hs] at h
      exact Except.noConfusion h
    · cases hc : st.store.config with
      | none =>
        rw [tryInit_ok_fresh st n p hp hs hc] at h
        simp only [Except.ok.injEq, Prod.mk.injEq] at h
        obtain ⟨_, hst'⟩ := h
        subst hst'
        exact Or.inl ⟨rfl, rfl, _, rfl⟩
      | some cfg =>
        rw [tryInit_ok_existing st n p hp hs cfg hc] at h
        simp only [Except.ok.injEq, Prod.mk.injEq] at h
        obtain ⟨_, hst'⟩ := h
        subst hst'
        exact Or.inr ⟨by simp, rfl⟩

/-- A successful `addAll` either had nothing to do or only inserted
positions into the bit array: every position set before is still set. -/
theorem addAll_ok_store {α : Type*} (hashFn : α → ℕ × ℕ) (st : FilterState)
    (items : List α) (c : ℕ) (st' : FilterState)
    (h : addAll hashFn st items = .ok (c, st')) :
    st' = st ∨
    ∃ st₁ B, ensureConfigLoaded st = .ok st₁ ∧
      st'.store.config = st.store.config ∧ st'.store.bits = some B ∧
      ∀ i ∈ st.store.bits.getD ∅, i ∈ B := by
  by_cases hlen : items.length = 0
  · rw [addAll, if_pos hlen] at h
    simp only [Except.ok.injEq, Prod.mk.injEq] at h
    exact Or.inl h.2.symm
  · rw [addAll, if_neg hlen] at h
    cases hE : ensureConfigLoaded st with
    | error e => simp [hE] at h
    | ok st₁ =>
      simp only [hE, Except.ok.injEq, Prod.mk.injEq] at h
      obtain ⟨_, hst'⟩ := h
      subst hst'
      have hsto : st₁.store = st.store := ensureConfigLoaded_ok_store st st₁ hE
      refine Or.inr ⟨st₁, _, rfl, by rw [← hsto], rfl, ?_⟩
      intro i hi
      apply mem_setbitBatch_fst.mpr
      left
      rw [hsto]
      exact hi

/-- A successful `containsAll` leaves the state unchanged except possibly
for the lazy cache load. -/
theorem containsAll_ok_state {α : Type*} (hashFn : α → ℕ × ℕ)
    (st : FilterState) (items : List α) (c : ℕ) (st' : FilterState)
    (h : containsAll hashFn st items = .ok (c, st')) :
    st' = st ∨ ensureConfigLoaded st = .ok st' := by
  by_cases hlen : items.length = 0
  · rw [containsAll, if_pos hlen] at h
    simp only [Except.ok.injEq, Prod.mk.injEq] at h
    exact Or.inl h.2.symm
  · rw [containsAll, if_neg hlen] at h
    cases hE : ensureConfigLoaded st with
    | error e => simp [hE] at h
    | ok st₁ =>
      simp only [hE, Except.ok.injEq, Prod.mk.injEq] at h
      obtain ⟨_, hst'⟩ := h
      subst hst'
      exact Or.inr rfl

/-- A successful `contains` is a successful singleton `containsAll`. -/
theorem contains_ok_containsAll {α : Type*} (hashFn : α → ℕ × ℕ)
    (st : FilterState) (x : α) (b : Bool) (st' : FilterState)
    (h : contains hashFn st x = .ok (b, st')) :
    ∃ c, containsAll hashFn st [x] = .ok (c, st') := by
  cases hE : containsAll hashFn st [x] with
  | error e =>
    simp only [contains, hE] at h
    exact Except.noConfusion h
  | ok pr =>
    cases pr with
    | mk cc st₁ =>
      simp only [contains, hE, Except.ok.injEq, Prod.mk.injEq] at h
      obtain ⟨_, rfl⟩ := h
      exact ⟨cc, rfl⟩

/-- A successful `add` is a successful singleton `addAll`. -/
theorem add_ok_addAll {α : Type*} (hashFn : α → ℕ × ℕ)
    (st : FilterState) (x : α) (b : Bool) (st' : FilterState)
    (h : add hashFn st x = .ok (b, st')) :
    ∃ c, addAll hashFn st [x] = .ok (c, st') := by
  cases hE : addAll hashFn st [x] with
  | error e =>
    simp only [add, hE] at h
    exact Except.noConfusion h
  | ok pr =>
    cases pr with
    | mk cc st₁ =>
      simp only [add, hE, Except.ok.injEq, Prod.mk.injEq] at h
      obtain ⟨_, rfl⟩ := h
      exact ⟨cc, rfl⟩

/-- A successful `count` performs exactly the lazy cache load. -/
theorem count_ok_state (st : FilterState) (c : ℤ) (st' : FilterState)
    (h : count st = .ok (c, st')) : ensureConfigLoaded st = .ok st' := by
  cases hE : ensureConfigLoaded st with
  | error e =>
    simp only [count, hE] at h
    exact Except.noConfusion h
  | ok st₁ =>
    simp only [count, hE, Except.ok.injEq, Prod.mk.injEq] at h
    obtain ⟨_, hst'⟩ := h
    subst hst'
    exact rfl

/-- A successful `addAll` preserves the state-machine invariant. -/
theorem inv_addAll {α : Type*} (hashFn : α → ℕ × ℕ) {st st' : FilterState}
    {items : List α} {c : ℕ} (hinv : Inv st)
    (h : addAll hashFn st items = .ok (c, st')) : Inv st' := by
  rcases addAll_ok_store hashFn st items c st' h with rfl |
    ⟨st₁, B, hens, hcfg, hbitsB, _⟩
  · exact hinv
  · have hcfgne : st'.store.config ≠ none := by
      rw [hcfg]
      rcases ensureConfigLoaded_cases st st₁ hens with ⟨hnz, _⟩ | ⟨_, cfg, hcfg', _⟩
      · exact hinv.2 (by omega)
      · rw [hcfg']
        simp
    exact ⟨fun h0 => absurd h0 hcfgne, fun _ => hcfgne⟩

/-- Every public operation preserves the state-machine invariant. -/
theorem inv_step {st st' : FilterState} (hinv : Inv st) (h : Step st st') :
    Inv st' := by
  cases h with
  | tryInit n p b _ _ hop =>
    rcases tryInit_ok_cases hop with ⟨_, _, cfg, hcfg⟩ | ⟨hne, hstore⟩
    · refine ⟨fun h0 => ?_, fun _ => ?_⟩
      · rw [hcfg] at h0
        exact Option.noConfusion h0
      · rw [hcfg]
        simp
    · refine ⟨fun h0 => ?_, fun _ => ?_⟩
      · rw [hstore] at h0 ⊢
        exact hinv.1 h0
      · rw [hstore]
        exact hne
  | add x b _ _ hop =>
    obtain ⟨c', hA⟩ := add_ok_addAll id _ x b _ hop
    exact inv_addAll id hinv hA
  | addAll items c _ _ hop => exact inv_addAll id hinv hop
  | contains x b _ _ hop =>
    obtain ⟨c', hC⟩ := contains_ok_containsAll id _ x b _ hop
    rcases containsAll_ok_state id _ [x] c' _ hC with rfl | hens
    · exact hinv
    · exact ensureConfigLoaded_ok_inv hinv hens
  | containsAll items c _ _ hop =>
    rcases containsAll_ok_state id _ items c _ hop with rfl | hens
    · exact hinv
    · exact ensureConfigLoaded_ok_inv hinv hens
  | count c _ _ hop =>
    exact ensureConfigLoaded_ok_inv hinv (count_ok_state _ c _ hop)
  | delete _ =>
    refine ⟨fun _ => rfl, fun h0 => ?_⟩
    simp [BloomFilter.delete] at h0
  | existsKey _ => exact hinv
  | getExpectedInsertions _ => exact hinv
  | getFalseProbability _ => exact hinv
  | getSize _ => exact hinv
  | getHashIterations _ => exact hinv

/-- Every reachable state satisfies the invariant. -/
theorem inv_reachable {st : FilterState} (h : Reachable st) : Inv st := by
  induction h with
  | init => exact ⟨fun _ => rfl, fun h0 => by simp [initialState] at h0⟩
  | step _ hstep ih => exact inv_step ih hstep

/-- Monotonicity is immediate when the step does not change the store. -/
theorem bits_mono_store_eq {st st' : FilterState}
    (hstore : st'.store = st.store) :
    ∀ b b' : Finset ℕ, st.store.bits = some b → st'.store.bits = some b' →
      ∀ i ∈ b, i ∈ b' := by
  intro b b' hb hb'
  rw [hstore, hb] at hb'
  obtain rfl := Option.some.inj hb'
  exact fun i hi => hi

/-- Monotonicity across a successful `addAll`: only `SETBIT _ _ 1` writes
are issued, so every set bit stays set. -/
theorem bits_mono_addAll {α : Type*} (hashFn : α → ℕ × ℕ)
    {st st' : FilterState} {items : List α} {c : ℕ}
    (h : addAll hashFn st items = .ok (c, st')) :
    ∀ b b' : Finset ℕ, st.store.bits = some b → st'.store.bits = some b' →
      ∀ i ∈ b, i ∈ b' := by
  rcases addAll_ok_store hashFn st items c st' h with rfl |
    ⟨st₁, B, _, _, hbitsB, hmono⟩
  · exact bits_mono_store_eq rfl
  · intro b b' hb hb'
    rw [hbitsB] at hb'
    obtain rfl := Option.some.inj hb'
    intro i hi
    apply hmono
    rw [hb]
    exact hi

/-- C7: bit monotonicity.  Across any single public operation performed
from any state reachable by a fresh instance on an empty store, no bit of
the bit array ever changes from 1 to 0: `addAll` only issues set-to-1
writes, read operations write nothing, and the one 0-valued bit write
(position 0 during initialization) happens only when the config key does
not exist yet — and then, by the invariant, the bit-array key does not
exist either. -/
theorem reachable_bits_monotone {st st' : FilterState} (hr : Reachable st)
    (hs : Step st st') :
    ∀ b b' : Finset ℕ, st.store.bits = some b → st'.store.bits = some b' →
      ∀ i ∈ b, i ∈ b' := by
  have hinv := inv_reachable hr
  cases hs with
  | tryInit n p bb _ _ hop =>
    rcases tryInit_ok_cases hop with ⟨hnone, _, _⟩ | ⟨_, hstore⟩
    · intro b b' hb _
      rw [hinv.1 hnone] at hb
      exact Option.noConfusion hb
    · exact bits_mono_store_eq hstore
  | add x bb _ _ hop =>
    obtain ⟨c', hA⟩ := add_ok_addAll id _ x bb _ hop
    exact bits_mono_addAll id hA
  | addAll items c _ _ hop => exact bits_mono_addAll id hop
  | contains x bb _ _ hop =>
    obtain ⟨c', hC⟩ := contains_ok_containsAll id _ x bb _ hop
    rcases containsAll_ok_state id _ [x] c' _ hC with rfl | hens
    · exact bits_mono_store_eq rfl
    · exact bits_mono_store_eq (ensureConfigLoaded_ok_store _ _ hens)
  | containsAll items c _ _ hop =>
    rcases containsAll_ok_state id _ items c _ hop with rfl | hens
    · exact bits_mono_store_eq rfl
    · exact bits_mono_store_eq (ensureConfigLoaded_ok_store _ _ hens)
  | count c _ _ hop =>
    exact bits_mono_store_eq
      (ensureConfigLoaded_ok_store _ _ (count_ok_state _ c _ hop))
  | delete _ =>
    intro b b' _ hb'
    exact Option.noConfusion hb'
  | existsKey _ => exact bits_mono_store_eq rfl
  | getExpectedInsertions _ => exact bits_mono_store_eq rfl
  | getFalseProbability _ => exact bits_mono_store_eq rfl
  | getSize _ => exact bits_mono_store_eq rfl
  | getHashIterations _ => exact bits_mono_store_eq rfl

/-- Witness for C7 at the initial state with the (state-preserving)
`exists` operation. -/
theorem reachable_bits_monotone_witness :
    Reachable initialState ∧ Step initialState initialState ∧
    (∀ b b' : Finset ℕ, initialState.store.bits = some b →
      initialState.store.bits = some b' → ∀ i ∈ b, i ∈ b') :=
  ⟨Reachable.init, Step.existsKey initialState,
    reachable_bits_monotone Reachable.init (Step.existsKey initialState)⟩

end BloomFilter
